import Mathlib

/-!
Verification development for the tribute repository: a shallow embedding of the
realization engine (src/portfolio.rs), the FIFO lot book (src/wallet.rs), and the
amount parsing/formatting and transaction ordering helpers (src/types.rs).

`BigDecimal` values are embedded as exact rationals (`ℚ`); `chrono` timestamps are
embedded as integers.
-/

set_option maxRecDepth 4000

namespace Tribute

/-- Modelled from the spec: `Symbol` (src/symbol.rs is not among the provided sources).
A tagged asset code, either fiat or crypto, drawn from a closed code set; symbols
compare by equality and display as their code text (`Symbol::symbol`). -/
inductive Symbol where
  | fiat (code : String)
  | crypto (code : String)
  deriving DecidableEq, Repr

/-- The display text of a symbol (the `symbol()` accessor used for descriptions). -/
def Symbol.code : Symbol → String
  | .fiat c => c
  | .crypto c => c

def USD : Symbol := .fiat "USD"

def BTC : Symbol := .crypto "BTC"

def ETH : Symbol := .crypto "ETH"

def USDT : Symbol := .crypto "USDT"

/-- `chrono::DateTime<Utc>` embedded as an integer timestamp. -/
abbrev DateTime := ℤ

/-- `Amount` from src/amount.rs: a `BigDecimal` value paired with a `Symbol`. -/
structure Amount where
  amount : ℚ
  symbol : Symbol
  deriving DecidableEq, Repr

/-- `Kind` from src/portfolio.rs: the single `Trade` variant carrying the offered and
gained amounts. -/
inductive Kind where
  | trade (offered : Amount) (gained : Amount)
  deriving DecidableEq, Repr

/-- `Trade` from src/portfolio.rs. -/
structure Trade where
  when : DateTime
  kind : Kind
  deriving DecidableEq, Repr

def Trade.offered : Trade → Amount
  | ⟨_, .trade o _⟩ => o

def Trade.gained : Trade → Amount
  | ⟨_, .trade _ g⟩ => g

/-- `Sale` from src/portfolio.rs (the engine-internal work item). -/
structure Sale where
  when : DateTime
  original_symbol : Symbol
  offered : Amount
  gained : Amount
  deriving DecidableEq, Repr

/-- Modelled from the spec: `Realization` (imported by src/portfolio.rs from the report
module, whose provided copy does not contain the struct). The fields are exactly the
ones constructed by `Portfolio::realizations` in src/portfolio.rs. -/
structure Realization where
  description : String
  acquired_when : Option DateTime
  disposed_when : DateTime
  proceeds : ℚ
  cost_basis : ℚ
  gain : ℚ
  deriving DecidableEq, Repr

/-- The description string built at src/portfolio.rs lines 89-95:
`"{S} sold via {S}-{D} pair"` with `S` the sale's original symbol. -/
def descriptionFor (original : Symbol) (denomination : Symbol) : String :=
  original.code ++ " sold via " ++ original.code ++ "-" ++ denomination.code ++ " pair"

/-- `HashMap<Symbol, VecDeque<Sale>>` embedded as an association list; lookup
(`HashMap::get_mut`). -/
def mapGet (m : List (Symbol × List Sale)) (s : Symbol) : Option (List Sale) :=
  match m with
  | [] => none
  | (k, q) :: rest => if k = s then some q else mapGet rest s

/-- Replace the queue stored under an existing key (in-place mutation through
`get_mut`); a missing key leaves the map unchanged. -/
def mapSet (m : List (Symbol × List Sale)) (s : Symbol) (q : List Sale) :
    List (Symbol × List Sale) :=
  match m with
  | [] => []
  | (k, q') :: rest => if k = s then (k, q) :: rest else (k, q') :: mapSet rest s q

/-- `entry(s).or_insert_with(VecDeque::new).push_back(sale)`. -/
def mapPushBack (m : List (Symbol × List Sale)) (s : Symbol) (sale : Sale) :
    List (Symbol × List Sale) :=
  match m with
  | [] => [(s, [sale])]
  | (k, q) :: rest =>
      if k = s then (k, q ++ [sale]) :: rest else (k, q) :: mapPushBack rest s sale

/-- The body of the `for trade in trades.iter()` loop of `organize_trades`: route the
trade's `Sale` either to `final_sales` (its gained symbol is the denomination) or to
the back of its `trades_by_gained` queue. -/
def organizeStep (denomination : Symbol)
    (acc : List (Symbol × List Sale) × List Sale) (trade : Trade) :
    List (Symbol × List Sale) × List Sale :=
  let sale : Sale := ⟨trade.when, trade.offered.symbol, trade.offered, trade.gained⟩
  if trade.gained.symbol = denomination then (acc.1, acc.2 ++ [sale])
  else (mapPushBack acc.1 trade.gained.symbol sale, acc.2)

/-- `organize_trades` from src/portfolio.rs lines 395-420: partition the ledger into
the per-symbol queues of acquiring trades and the queue of sales into the
denomination, preserving ledger order. -/
def organize_trades (trades : List Trade) (denomination : Symbol) :
    List (Symbol × List Sale) × List Sale :=
  trades.foldl (organizeStep denomination) ([], [])

/-- The mutable state of the main loop of `Portfolio::realizations`. -/
structure EngineState where
  trades_by_gained : List (Symbol × List Sale)
  final_sales : List Sale
  realizations : List Realization
  deriving DecidableEq, Repr

/-- Outcome of one iteration of the main loop: either the loop exits (returning the
accumulated realizations) or it continues in a new state. -/
inductive StepResult where
  | done (rs : List Realization)
  | running (st : EngineState)
  deriving DecidableEq, Repr

/-- One iteration of the `while let Some(trade) = final_sales.pop_front()` loop of
`Portfolio::realizations` (src/portfolio.rs lines 84-194), transcribed branch by
branch:
- no queue for the offered symbol: the `if let` body is skipped and the sale dropped;
- existing but empty queue: an uncovered realization is emitted and the loop `break`s;
- popped `matching` with `trade.offered.amount < matching.gained.amount` (lines
  100-132): emit a realization unconditionally and push the residual of `matching`
  back onto the front of its queue;
- otherwise (lines 134-176): emit only when `matching.offered.symbol` is the
  denomination, else push the one-hop recursion sale onto the front of the matching
  queue; then, if the remainder of the current sale is non-zero, push it onto the
  front of `final_sales`. -/
def loopStep (denomination : Symbol) (st : EngineState) : StepResult :=
  match st.final_sales with
  | [] => .done st.realizations
  | trade :: rest =>
    match mapGet st.trades_by_gained trade.offered.symbol with
    | none => .running ⟨st.trades_by_gained, rest, st.realizations⟩
    | some matching_sales =>
      let description := descriptionFor trade.original_symbol denomination
      match matching_sales with
      | [] =>
        let realization : Realization :=
          ⟨description, none, trade.when, trade.gained.amount, 0, trade.gained.amount⟩
        .done (st.realizations ++ [realization])
      | matching :: mrest =>
        if trade.offered.amount < matching.gained.amount then
          let divisor := trade.offered.amount / matching.gained.amount
          let proceeds := trade.gained.amount
          let cost_basis := matching.offered.amount * divisor
          let gain := proceeds - cost_basis
          let realization : Realization :=
            ⟨description, some matching.when, trade.when, proceeds, cost_basis, gain⟩
          let remainder_gained := matching.gained.amount - trade.offered.amount
          let remainder_offered :=
            matching.offered.amount - matching.offered.amount * divisor
          let sale : Sale :=
            ⟨matching.when, matching.original_symbol,
              ⟨remainder_offered, matching.offered.symbol⟩,
              ⟨remainder_gained, matching.gained.symbol⟩⟩
          .running
            ⟨mapSet st.trades_by_gained trade.offered.symbol (sale :: mrest),
              rest, st.realizations ++ [realization]⟩
        else
          let divisor := matching.gained.amount / trade.offered.amount
          let proceeds := trade.gained.amount * divisor
          let cost_basis := matching.offered.amount
          let gain := proceeds - cost_basis
          let emitted :=
            if matching.offered.symbol = denomination then
              (mrest,
                st.realizations ++
                  [⟨description, some matching.when, trade.when, proceeds, cost_basis,
                    gain⟩])
            else
              ((⟨matching.when, matching.original_symbol,
                  ⟨trade.offered.amount, matching.offered.symbol⟩,
                  ⟨proceeds, matching.gained.symbol⟩⟩ : Sale) :: mrest,
                st.realizations)
          let remainder_gained := trade.gained.amount - proceeds
          let remainder_offered := trade.offered.amount - trade.offered.amount * divisor
          let final_sales :=
            if remainder_gained = 0 then rest
            else
              (⟨trade.when, trade.original_symbol,
                 ⟨remainder_offered, trade.offered.symbol⟩,
                 ⟨remainder_gained, trade.gained.symbol⟩⟩ : Sale) :: rest
          .running
            ⟨mapSet st.trades_by_gained trade.offered.symbol emitted.1, final_sales,
              emitted.2⟩

/-- Run the main loop for at most `fuel` iterations; `none` when the loop has not
exited within the fuel bound. -/
def runLoop (denomination : Symbol) : ℕ → EngineState → Option (List Realization)
  | 0, _ => none
  | n + 1, st =>
    match loopStep denomination st with
    | .done rs => some rs
    | .running st' => runLoop denomination n st'

/-- The state of `Portfolio::realizations` right after `organize_trades`. -/
def initState (trades : List Trade) (denomination : Symbol) : EngineState :=
  ⟨(organize_trades trades denomination).1, (organize_trades trades denomination).2, []⟩

/-- `Portfolio::realizations` (src/portfolio.rs lines 79-197), fuel-indexed because
the source loop is not guaranteed to terminate. -/
def realizationsRun (trades : List Trade) (denomination : Symbol) (fuel : ℕ) :
    Option (List Realization) :=
  runLoop denomination fuel (initState trades denomination)

/-- Ledger exercising Case A with a non-denomination acquiring hop:
ETH 2 → BTC 4 at time 1, then BTC 1 → USD 100 at time 2. -/
def ledgerC1 : List Trade :=
  [⟨1, .trade ⟨2, ETH⟩ ⟨4, BTC⟩⟩, ⟨2, .trade ⟨1, BTC⟩ ⟨100, USD⟩⟩]

/-- The ledger of the repository's own `test_portfolio_one_to_one_with_exchange`:
USD 1000 → BTC 1 at time 1, BTC 1 → USDT 2000 at time 2, USDT 2000 → USD 2000 at
time 3. -/
def ledgerC2 : List Trade :=
  [⟨1, .trade ⟨1000, USD⟩ ⟨1, BTC⟩⟩, ⟨2, .trade ⟨1, BTC⟩ ⟨2000, USDT⟩⟩,
   ⟨3, .trade ⟨2000, USDT⟩ ⟨2000, USD⟩⟩]

/-- Ledger with two sales into USD where the first one exhausts the BTC queue:
USD 100 → BTC 1 at time 1, BTC 2 → USD 400 at time 2, BTC 1 → USD 100 at time 3. -/
def ledgerC3 : List Trade :=
  [⟨1, .trade ⟨100, USD⟩ ⟨1, BTC⟩⟩, ⟨2, .trade ⟨2, BTC⟩ ⟨400, USD⟩⟩,
   ⟨3, .trade ⟨1, BTC⟩ ⟨100, USD⟩⟩]

/-- Ledger consisting of a single sale into USD of an asset no trade ever gained. -/
def ledgerC4 : List Trade := [⟨1, .trade ⟨1, BTC⟩ ⟨100, USD⟩⟩]

/-- C1: the claim says that in Case A a realization is emitted iff the matched
trade's offered symbol is the denomination, and that otherwise a recursion sale is
pushed onto `final_sales`. On `ledgerC1` the first iteration is Case A
(`trade.offered.amount = 1 < 4 = matching.gained.amount`) with
`matching.offered.symbol = ETH ≠ USD`, yet the engine emits a realization at that
hop (its cost basis `1/2` is the ETH-denominated `m.offered.amount * r`), pushes no
recursion sale, and returns exactly this single realization: src/portfolio.rs lines
100-132 contain no denomination test at all. -/
theorem C1_caseA_emits_without_denomination_check :
    realizationsRun ledgerC1 USD 5 =
      some [⟨descriptionFor BTC USD, some 1, 2, 100, 1 / 2, 199 / 2⟩] := by
  with_unfolding_all rfl

/-- C2: the claim says the one-hop recursion sale of Case B is pushed onto
`final_sales`. In the source (src/portfolio.rs line 160) it is pushed onto the
per-symbol matching queue instead, so on the repository's own exchange test ledger
the engine returns no realizations at all, while the test
`test_portfolio_one_to_one_with_exchange` expects one USDT realization with
proceeds 2000 and cost basis 1000. -/
theorem C2_caseB_recursion_sale_lost_in_matching_queue :
    realizationsRun ledgerC2 USD 6 = some [] := by with_unfolding_all rfl

/-- C3: the claim says that after emitting the uncovered realization for an
exhausted matching queue the loop continues, so every remaining final sale is still
processed. The source `break`s instead (src/portfolio.rs line 189): on `ledgerC3`
the engine stops right after the uncovered realization of the residual of the
time-2 sale, and the time-3 sale (which should yield a third, uncovered,
realization with proceeds 100) produces nothing. -/
theorem C3_break_drops_remaining_final_sales :
    realizationsRun ledgerC3 USD 8 =
      some [⟨descriptionFor BTC USD, some 1, 2, 200, 100, 100⟩,
        ⟨descriptionFor BTC USD, none, 2, 200, 0, 200⟩] := by with_unfolding_all rfl

/-- C4: the claim says a final sale whose offered symbol has no queue at all in
`trades_by_gained` yields an uncovered realization and is never silently dropped.
In the source the whole loop body is guarded by
`if let Some(matching_sales) = trades_by_gained.get_mut(..)` (src/portfolio.rs line
85) with no else branch, so on `ledgerC4` the single BTC sale is dropped and the
engine returns an empty realization list. -/
theorem C4_missing_queue_sale_silently_dropped :
    realizationsRun ledgerC4 USD 5 = some [] := by with_unfolding_all rfl

/-- Ledger on which the main loop never terminates: ETH 1 → BTC 1 at time 1, then
BTC 2 → USD 1 at time 2. All amounts are strictly positive. -/
def ledgerC5 : List Trade :=
  [⟨1, .trade ⟨1, ETH⟩ ⟨1, BTC⟩⟩, ⟨2, .trade ⟨2, BTC⟩ ⟨1, USD⟩⟩]

/-- The family of loop states the engine cycles through on `ledgerC5`: one final
sale of `a` BTC gaining `a/2` USD, and one matching BTC-gaining sale offering ETH
and gaining `a/2` BTC. Each iteration maps `spinState a c` to
`spinState (a/2) a`. -/
def spinState (a c : ℚ) : EngineState :=
  ⟨[(BTC, [⟨1, ETH, ⟨c, ETH⟩, ⟨a / 2, BTC⟩⟩])],
   [⟨2, BTC, ⟨a, BTC⟩, ⟨a / 2, USD⟩⟩], []⟩

theorem loopStep_spin (a c : ℚ) (ha : 0 < a) :
    loopStep USD (spinState a c) = .running (spinState (a / 2) a) := by
  have ha' : a ≠ 0 := ne_of_gt ha
  have h1 : ¬ ((a : ℚ) < a / 2) := by linarith
  have h2 : (a / 2) / a = 1 / 2 := by
    rw [div_div, mul_comm, ← div_div, div_self ha']
  have h3 : ¬ (a / 2 - a / 2 * 2⁻¹ = 0) := by
    have h4 : a / 2 - a / 2 * 2⁻¹ = a / 4 := by ring
    rw [h4]
    exact div_ne_zero ha' (by norm_num)
  simp only [loopStep, spinState, mapGet, mapSet]
  simp [h1, h2, USD, BTC, ETH]
  refine ⟨by ring, ?_⟩
  rw [if_neg h3]
  simp [Sale.mk.injEq, Amount.mk.injEq]
  constructor <;> ring

theorem runLoop_spin (n : ℕ) : ∀ a c : ℚ, 0 < a → runLoop USD n (spinState a c) = none := by
  induction n with
  | zero => intro a c _; rfl
  | succ n ih =>
      intro a c ha
      rw [runLoop, loopStep_spin a c ha]
      exact ih (a / 2) a (by positivity)

/-- C5: the claim says the main loop terminates for every finite ledger of strictly
positive trades. On the two-trade ledger `ledgerC5` the engine never exits: Case B
keeps splitting the popped sale in half, pushing one residual onto `final_sales` and
one recursion sale back onto the BTC matching queue, forever. For every fuel bound
the loop is still running. -/
theorem C5_engine_never_terminates (n : ℕ) :
    realizationsRun ledgerC5 USD n = none := by
  have h : initState ledgerC5 USD = spinState 2 1 := by with_unfolding_all rfl
  rw [realizationsRun, h]
  exact runLoop_spin n 2 1 (by norm_num)

/-- Ledger sorted by timestamp in which the only sale into USD happens before the
trade acquiring BTC: BTC 1 → USD 100 at time 1, then USD 50 → BTC 2 at time 2. -/
def ledgerC6 : List Trade :=
  [⟨1, .trade ⟨1, BTC⟩ ⟨100, USD⟩⟩, ⟨2, .trade ⟨50, USD⟩ ⟨2, BTC⟩⟩]

/-- C6 counterexample: on the timestamp-sorted ledger `ledgerC6` the engine matches
the time-1 disposal against the time-2 acquisition (the FIFO queues ignore relative
timing), emitting a realization with `acquired_when = some 2` and
`disposed_when = 1`, so `t_a ≤ t_d` fails. -/
theorem C6_counterexample_acquired_after_disposal :
    realizationsRun ledgerC6 USD 4 =
      some [⟨descriptionFor BTC USD, some 2, 1, 100, 25, 75⟩] ∧ ¬ ((2 : ℤ) ≤ 1) :=
  ⟨by with_unfolding_all rfl, by decide⟩

/-- Realization lists whose acquisition date, when present, does not exceed the
disposal date. -/
def DatesOk (rs : List Realization) : Prop :=
  ∀ r ∈ rs, ∀ ta, r.acquired_when = some ta → ta ≤ r.disposed_when

/-- Loop-state invariant behind the dates property, relative to a per-symbol time
bound `B`: every queued acquiring sale is dated at most `B` of its queue's symbol,
every pending final sale is dated at least `B` of its offered symbol, and the
realizations emitted so far have ordered dates. -/
def StateDatesOk (B : Symbol → ℤ) (st : EngineState) : Prop :=
  (∀ sale ∈ st.final_sales, B sale.offered.symbol ≤ sale.when) ∧
  (∀ s q, mapGet st.trades_by_gained s = some q → ∀ sale ∈ q, sale.when ≤ B s) ∧
  DatesOk st.realizations

theorem mapGet_mapSet (m : List (Symbol × List Sale)) (s : Symbol) (q : List Sale)
    (t : Symbol) :
    mapGet (mapSet m s q) t =
      if t = s ∧ (mapGet m s).isSome then some q else mapGet m t := by
  induction m with
  | nil => simp [mapGet, mapSet]
  | cons kv rest ih =>
      obtain ⟨k, q0⟩ := kv
      by_cases hks : k = s
      · subst hks
        by_cases hkt : k = t
        · subst hkt
          simp [mapGet, mapSet]
        · have htk : ¬ t = k := fun h => hkt h.symm
          simp [mapGet, mapSet, hkt, htk]
      · by_cases hkt : k = t
        · subst hkt
          have hts : ¬ k = s := hks
          simp [mapGet, mapSet, hts]
        · simp [mapGet, mapSet, hks, hkt, ih]

theorem mapGet_mapPushBack (m : List (Symbol × List Sale)) (s : Symbol) (x : Sale)
    (t : Symbol) :
    mapGet (mapPushBack m s x) t =
      if t = s then some ((mapGet m s).getD [] ++ [x]) else mapGet m t := by
  induction m with
  | nil =>
      by_cases hts : t = s
      · subst hts; simp [mapGet, mapPushBack]
      · have hst : ¬ s = t := fun h => hts h.symm
        simp [mapGet, mapPushBack, hts, hst]
  | cons kv rest ih =>
      obtain ⟨k, q0⟩ := kv
      by_cases hks : k = s
      · subst hks
        by_cases hkt : k = t
        · subst hkt
          simp [mapGet, mapPushBack]
        · have htk : ¬ t = k := fun h => hkt h.symm
          simp [mapGet, mapPushBack, hkt, htk]
      · by_cases hkt : k = t
        · subst hkt
          simp [mapGet, mapPushBack, hks]
        · simp [mapGet, mapPushBack, hks, hkt, ih]


theorem loopStep_done_datesOk (B : Symbol → ℤ) (d : Symbol) (st : EngineState)
    (h : StateDatesOk B st) (rs : List Realization)
    (hdone : loopStep d st = .done rs) : DatesOk rs := by
  obtain ⟨tbg, fs, reals⟩ := st
  obtain ⟨hfin, hmap, hreal⟩ := h
  cases fs with
  | nil =>
      simp only [loopStep] at hdone
      cases hdone
      exact hreal
  | cons trade rest =>
      simp only [loopStep] at hdone
      cases hq : mapGet tbg trade.offered.symbol with
      | none =>
          simp only [hq] at hdone
          cases hdone
      | some msales =>
          simp only [hq] at hdone
          cases msales with
          | nil =>
              simp only [] at hdone
              cases hdone
              intro r hr ta hta
              rcases List.mem_append.1 hr with h1 | h1
              · exact hreal r h1 ta hta
              · simp only [List.mem_singleton] at h1
                subst h1
                simp at hta
          | cons matching mrest =>
              simp only [] at hdone
              by_cases hcmp : trade.offered.amount < matching.gained.amount
              · rw [if_pos hcmp] at hdone
                cases hdone
              · rw [if_neg hcmp] at hdone
                cases hdone

theorem loopStep_running_datesOk (B : Symbol → ℤ) (d : Symbol) (st : EngineState)
    (h : StateDatesOk B st) (st' : EngineState)
    (hrun : loopStep d st = .running st') : StateDatesOk B st' := by
  obtain ⟨tbg, fs, reals⟩ := st
  obtain ⟨hfin, hmap, hreal⟩ := h
  cases fs with
  | nil =>
      simp only [loopStep] at hrun
      cases hrun
  | cons trade rest =>
      have hfin_rest : ∀ sale ∈ rest, B sale.offered.symbol ≤ sale.when :=
        fun sale hs => hfin sale (List.mem_cons_of_mem _ hs)
      have hfin_head : B trade.offered.symbol ≤ trade.when :=
        hfin trade (List.mem_cons_self _ _)
      simp only [loopStep] at hrun
      cases hq : mapGet tbg trade.offered.symbol with
      | none =>
          simp only [hq] at hrun
          cases hrun
          exact ⟨hfin_rest, hmap, hreal⟩
      | some msales =>
          simp only [hq] at hrun
          cases msales with
          | nil =>
              simp only [] at hrun
              cases hrun
          | cons matching mrest =>
              simp only [] at hrun
              have hqhead : matching.when ≤ B trade.offered.symbol :=
                hmap _ _ hq matching (List.mem_cons_self _ _)
              have hqrest : ∀ x ∈ mrest, x.when ≤ B trade.offered.symbol :=
                fun x hx => hmap _ _ hq x (List.mem_cons_of_mem _ hx)
              by_cases hcmp : trade.offered.amount < matching.gained.amount
              · rw [if_pos hcmp] at hrun
                cases hrun
                refine ⟨hfin_rest, ?_, ?_⟩
                · intro s q hgs x hx
                  rw [mapGet_mapSet] at hgs
                  split_ifs at hgs with hc
                  · cases hgs
                    obtain ⟨hts, _⟩ := hc
                    subst hts
                    rcases List.mem_cons.1 hx with h1 | h1
                    · subst h1; exact hqhead
                    · exact hqrest x h1
                  · exact hmap s q hgs x hx
                · intro r hr ta hta
                  rcases List.mem_append.1 hr with h1 | h1
                  · exact hreal r h1 ta hta
                  · simp only [List.mem_singleton] at h1
                    subst h1
                    simp only [Option.some.injEq] at hta
                    subst hta
                    exact le_trans hqhead hfin_head
              · rw [if_neg hcmp] at hrun
                have hnewq : ∀ x ∈ (⟨matching.when, matching.original_symbol,
                    ⟨trade.offered.amount, matching.offered.symbol⟩,
                    ⟨trade.gained.amount * (matching.gained.amount / trade.offered.amount),
                      matching.gained.symbol⟩⟩ : Sale) :: mrest,
                    x.when ≤ B trade.offered.symbol := by
                  intro x hx
                  rcases List.mem_cons.1 hx with h1 | h1
                  · subst h1; exact hqhead
                  · exact hqrest x h1
                have hres : ∀ x ∈ (⟨trade.when, trade.original_symbol,
                    ⟨trade.offered.amount -
                        trade.offered.amount * (matching.gained.amount / trade.offered.amount),
                      trade.offered.symbol⟩,
                    ⟨trade.gained.amount -
                        trade.gained.amount * (matching.gained.amount / trade.offered.amount),
                      trade.gained.symbol⟩⟩ : Sale) :: rest,
                    B x.offered.symbol ≤ x.when := by
                  intro x hx
                  rcases List.mem_cons.1 hx with h1 | h1
                  · subst h1; exact hfin_head
                  · exact hfin_rest x h1
                by_cases hsym : matching.offered.symbol = d
                · rw [if_pos hsym] at hrun
                  by_cases hrem : trade.gained.amount -
                      trade.gained.amount * (matching.gained.amount / trade.offered.amount) = 0

                  · rw [if_pos hrem] at hrun
                    cases hrun
                    refine ⟨hfin_rest, ?_, ?_⟩
                    · intro s q hgs x hx
                      rw [mapGet_mapSet] at hgs
                      split_ifs at hgs with hc
                      · cases hgs
                        obtain ⟨hts, _⟩ := hc
                        subst hts
                        exact hqrest x hx
                      · exact hmap s q hgs x hx
                    · intro r hr ta hta
                      rcases List.mem_append.1 hr with h1 | h1
                      · exact hreal r h1 ta hta
                      · simp only [List.mem_singleton] at h1
                        subst h1
                        simp only [Option.some.injEq] at hta
                        subst hta
                        exact le_trans hqhead hfin_head
                  · rw [if_neg hrem] at hrun
                    cases hrun
                    refine ⟨hres, ?_, ?_⟩
                    · intro s q hgs x hx
                      rw [mapGet_mapSet] at hgs
                      split_ifs at hgs with hc
                      · cases hgs
                        obtain ⟨hts, _⟩ := hc
                        subst hts
                        exact hqrest x hx
                      · exact hmap s q hgs x hx
                    · intro r hr ta hta
                      rcases List.mem_append.1 hr with h1 | h1
                      · exact hreal r h1 ta hta
                      · simp only [List.mem_singleton] at h1
                        subst h1
                        simp only [Option.some.injEq] at hta
                        subst hta
                        exact le_trans hqhead hfin_head
                · rw [if_neg hsym] at hrun
                  by_cases hrem : trade.gained.amount -
                      trade.gained.amount * (matching.gained.amount / trade.offered.amount) = 0

                  · rw [if_pos hrem] at hrun
                    cases hrun
                    refine ⟨hfin_rest, ?_, ?_⟩
                    · intro s q hgs x hx
                      rw [mapGet_mapSet] at hgs
                      split_ifs at hgs with hc
                      · cases hgs
                        obtain ⟨hts, _⟩ := hc
                        subst hts
                        exact hnewq x hx
                      · exact hmap s q hgs x hx
                    · exact hreal
                  · rw [if_neg hrem] at hrun
                    cases hrun
                    refine ⟨hres, ?_, ?_⟩
                    · intro s q hgs x hx
                      rw [mapGet_mapSet] at hgs
                      split_ifs at hgs with hc
                      · cases hgs
                        obtain ⟨hts, _⟩ := hc
                        subst hts
                        exact hnewq x hx
                      · exact hmap s q hgs x hx
                    · exact hreal


theorem runLoop_datesOk (B : Symbol → ℤ) (d : Symbol) :
    ∀ (n : ℕ) (st : EngineState) (rs : List Realization),
      StateDatesOk B st → runLoop d n st = some rs → DatesOk rs := by
  intro n
  induction n with
  | zero => intro st rs _ h; simp [runLoop] at h
  | succ n ih =>
      intro st rs hst h
      rw [runLoop] at h
      cases hstep : loopStep d st with
      | done rs' =>
          rw [hstep] at h
          simp only [Option.some.injEq] at h
          subst h
          exact loopStep_done_datesOk B d st hst rs' hstep
      | running st' =>
          rw [hstep] at h
          exact ih st' rs (loopStep_running_datesOk B d st hst st' hstep) h

/-- The per-ledger hypothesis for the dates invariant: relative to a per-symbol time
bound `B`, every trade gaining the denomination is dated at least the bound of the
symbol it disposes, and every other trade is dated at most the bound of the symbol
it acquires. -/
def LedgerDatesOk (trades : List Trade) (d : Symbol) (B : Symbol → ℤ) : Prop :=
  ∀ t ∈ trades,
    (t.gained.symbol = d → B t.offered.symbol ≤ t.when) ∧
    (¬ t.gained.symbol = d → t.when ≤ B t.gained.symbol)

theorem organizeFold_datesOk (d : Symbol) (B : Symbol → ℤ) :
    ∀ (trades : List Trade) (acc : List (Symbol × List Sale) × List Sale),
      LedgerDatesOk trades d B →
      (∀ sale ∈ acc.2, B sale.offered.symbol ≤ sale.when) →
      (∀ s q, mapGet acc.1 s = some q → ∀ sale ∈ q, sale.when ≤ B s) →
      (∀ sale ∈ (trades.foldl (organizeStep d) acc).2, B sale.offered.symbol ≤ sale.when) ∧
      (∀ s q, mapGet (trades.foldl (organizeStep d) acc).1 s = some q →
        ∀ sale ∈ q, sale.when ≤ B s) := by
  intro trades
  induction trades with
  | nil => intro acc _ h2 h3; exact ⟨h2, h3⟩
  | cons t ts ih =>
      intro acc hb h2 h3
      rw [List.foldl_cons]
      apply ih
      · intro x hx
        exact hb x (List.mem_cons_of_mem _ hx)
      · by_cases hg : t.gained.symbol = d
        · simp only [organizeStep, if_pos hg]
          intro sale hs
          rcases List.mem_append.1 hs with h1 | h1
          · exact h2 sale h1
          · simp only [List.mem_singleton] at h1
            subst h1
            exact (hb t (List.mem_cons_self _ _)).1 hg
        · simp only [organizeStep, if_neg hg]
          exact h2
      · by_cases hg : t.gained.symbol = d
        · simp only [organizeStep, if_pos hg]
          exact h3
        · simp only [organizeStep, if_neg hg]
          intro s q h sale hs
          rw [mapGet_mapPushBack] at h
          split_ifs at h with hts
          · subst hts
            cases h
            rcases List.mem_append.1 hs with h1 | h1
            · cases hget : mapGet acc.1 t.gained.symbol with
              | none => rw [hget] at h1; simp at h1
              | some q0 =>
                  rw [hget] at h1
                  simp only [Option.getD_some] at h1
                  exact h3 _ q0 hget sale h1
            · simp only [List.mem_singleton] at h1
              subst h1
              exact (hb t (List.mem_cons_self _ _)).2 hg
          · exact h3 s q h sale hs

theorem initState_datesOk (trades : List Trade) (d : Symbol) (B : Symbol → ℤ)
    (hb : LedgerDatesOk trades d B) : StateDatesOk B (initState trades d) := by
  obtain ⟨h1, h2⟩ := organizeFold_datesOk d B trades ([], [])
    hb (by intro sale hs; simp at hs) (by intro s q h; simp [mapGet] at h)
  exact ⟨h1, h2, by intro r hr; simp [initState] at hr⟩

/-- C6 (amended): the unrestricted claim fails because the FIFO matching ignores
relative timing and can pair a disposal with a later acquisition (see the
counterexample). For every ledger admitting a per-symbol time bound separating
acquisitions from disposals — in particular every timestamp-sorted ledger in which,
for each asset, all trades acquiring the asset precede all sales of it into the
denomination — every realization the engine returns with
`acquired_when = some t_a` satisfies `t_a ≤ disposed_when`. -/
theorem C6_realization_dates_ordered (trades : List Trade) (d : Symbol)
    (B : Symbol → ℤ) (hb : LedgerDatesOk trades d B) (n : ℕ) (rs : List Realization)
    (h : realizationsRun trades d n = some rs) :
    ∀ r ∈ rs, ∀ ta, r.acquired_when = some ta → ta ≤ r.disposed_when :=
  runLoop_datesOk B d n (initState trades d) rs (initState_datesOk trades d B hb) h

/-- A timestamp-sorted ledger whose acquisition precedes its disposal. -/
def ledgerC6w : List Trade :=
  [⟨1, .trade ⟨1000, USD⟩ ⟨1, BTC⟩⟩, ⟨2, .trade ⟨1, BTC⟩ ⟨2000, USD⟩⟩]

theorem C6_realization_dates_ordered_witness :
    LedgerDatesOk ledgerC6w USD (fun _ => 1) ∧
    ∀ r ∈ [(⟨descriptionFor BTC USD, some 1, 2, 2000, 1000, 1000⟩ : Realization)],
      ∀ ta, r.acquired_when = some ta → ta ≤ r.disposed_when :=
  ⟨by unfold LedgerDatesOk; decide,
    C6_realization_dates_ordered ledgerC6w USD (fun _ => 1)
      (by unfold LedgerDatesOk; decide) 4 _ (by with_unfolding_all rfl)⟩


/-- `Lot` from src/wallet.rs: a parcel of `amount` items, each bought at
`unit_cost`, acquired at `date_of_purchase`. -/
structure Lot where
  amount : ℚ
  unit_cost : ℚ
  date_of_purchase : DateTime
  deriving DecidableEq, Repr

/-- `Sale` from src/wallet.rs (the wallet's sale result; distinct from the engine's
`Sale`). -/
structure WalletSale where
  cost_basis : ℚ
  date_of_purchase : Option DateTime
  deriving DecidableEq, Repr

/-- `Wallet` from src/wallet.rs. -/
structure Wallet where
  token : String
  cumulative_bought : ℚ
  cumulative_sold : ℚ
  lots : List Lot
  deriving DecidableEq, Repr

/-- `Wallet::new`. -/
def Wallet.new (token : String) : Wallet := ⟨token, 0, 0, []⟩

/-- `Wallet::add_lot`. -/
def Wallet.add_lot (w : Wallet) (amount unit_cost : ℚ) (date : DateTime) : Wallet :=
  ⟨w.token, w.cumulative_bought + amount, w.cumulative_sold,
    w.lots ++ [⟨amount, unit_cost, date⟩]⟩

/-- `Wallet::cost_basis`: the total cost basis of everything in the wallet. -/
def Wallet.cost_basis (w : Wallet) : ℚ :=
  (w.lots.map fun lot => lot.amount * lot.unit_cost).sum

/-- `Wallet::count`: the number of tokens stored in the wallet. -/
def Wallet.count (w : Wallet) : ℚ :=
  (w.lots.map Lot.amount).sum

/-- The `for lot in self.lots.iter_mut()` loop of `Wallet::sell` (src/wallet.rs
lines 82-97) combined with the `drain(..lots_consumed)` (line 103): walk the lots,
record the date of the first lot touched, fully consume lots while the remaining
request covers them (these are drained), and on a strictly larger lot reduce it in
place and stop. Returns the accumulated cost, the recorded date, and the remaining
lots. -/
def sellLoop : List Lot → ℚ → Option DateTime → ℚ → ℚ × Option DateTime × List Lot
  | [], total, date, _ => (total, date, [])
  | lot :: rest, total, date, toConsume =>
    let date := if date.isNone then some lot.date_of_purchase else date
    if toConsume < lot.amount then
      (total + toConsume * lot.unit_cost, date,
        (⟨lot.amount - toConsume, lot.unit_cost, lot.date_of_purchase⟩ : Lot) :: rest)
    else
      sellLoop rest (total + lot.amount * lot.unit_cost) date (toConsume - lot.amount)

/-- `Wallet::sell` (src/wallet.rs lines 73-110): increment `cumulative_sold` by the
requested amount, then consume lots oldest-first. -/
def Wallet.sell (w : Wallet) (amount : ℚ) : WalletSale × Wallet :=
  let r := sellLoop w.lots 0 none amount
  (⟨r.1, r.2.1⟩, ⟨w.token, w.cumulative_bought, w.cumulative_sold + amount, r.2.2⟩)

theorem sellLoop_exact_total (lots : List Lot) :
    ∀ (total : ℚ) (date : Option DateTime),
      (∀ lot ∈ lots, 0 ≤ lot.amount) →
      (sellLoop lots total date ((lots.map Lot.amount).sum)).2.2 = [] := by
  induction lots with
  | nil => intro total date _; rfl
  | cons lot rest ih =>
      intro total date hpos
      have hres : 0 ≤ ((rest.map Lot.amount).sum : ℚ) := by
        apply List.sum_nonneg
        intro x hx
        simp only [List.mem_map] at hx
        obtain ⟨l, hl, he⟩ := hx
        subst he
        exact hpos l (List.mem_cons_of_mem _ hl)
      have hsum : ((lot :: rest).map Lot.amount).sum
          = lot.amount + (rest.map Lot.amount).sum := by
        simp
      have hcmp : ¬ (lot.amount + (rest.map Lot.amount).sum < lot.amount) := by linarith
      rw [hsum, sellLoop, if_neg hcmp]
      have hsub : lot.amount + (rest.map Lot.amount).sum - lot.amount
          = (rest.map Lot.amount).sum := by ring
      rw [hsub]
      exact ih _ _ (fun l hl => hpos l (List.mem_cons_of_mem _ hl))

/-- C8: `Wallet::sell` satisfies the three claimed properties. Selling any amount
from a wallet with no lots returns cost basis 0 and no purchase date; selling
exactly the sum of all lot amounts (the lots being nonnegative, as produced by
nonnegative purchases) leaves no lots, so `count()` is 0; and every sale adds
exactly the requested amount to `cumulative_sold`, whether or not the request could
be satisfied. -/
theorem C8_wallet_sell_properties (w : Wallet) (amount : ℚ) :
    (w.lots = [] →
      (w.sell amount).1.cost_basis = 0 ∧ (w.sell amount).1.date_of_purchase = none) ∧
    ((∀ lot ∈ w.lots, 0 ≤ lot.amount) →
      (w.sell w.count).2.lots = [] ∧ (w.sell w.count).2.count = 0) ∧
    (w.sell amount).2.cumulative_sold = w.cumulative_sold + amount := by
  refine ⟨?_, ?_, rfl⟩
  · intro h
    simp [Wallet.sell, h, sellLoop]
  · intro hpos
    have h := sellLoop_exact_total w.lots 0 none hpos
    constructor
    · exact h
    · simp only [Wallet.count, Wallet.sell]
      rw [h]
      simp

/-- A concrete wallet with one lot of 2 tokens at unit cost 3 bought at time 5. -/
def walletW : Wallet := ⟨"BTC", 2, 0, [⟨2, 3, 5⟩]⟩

theorem C8_wallet_sell_properties_witness :
    ((Wallet.new "BTC").sell 5).1.cost_basis = 0 ∧
    ((Wallet.new "BTC").sell 5).1.date_of_purchase = none ∧
    (walletW.sell walletW.count).2.lots = [] ∧
    (walletW.sell walletW.count).2.count = 0 ∧
    (walletW.sell 7).2.cumulative_sold = 0 + 7 := by
  obtain ⟨h1, _, _⟩ := C8_wallet_sell_properties (Wallet.new "BTC") 5
  obtain ⟨he1, he2⟩ := h1 rfl
  obtain ⟨_, h2, h3⟩ := C8_wallet_sell_properties walletW 7
  obtain ⟨hw1, hw2⟩ := h2 (by decide)
  exact ⟨he1, he2, hw1, hw2, h3⟩

/-- `Transaction` from src/types.rs: the canonical ledger row. The `provider` tag is
a string. -/
structure Transaction where
  id : String
  market : String
  token : String
  amount : ℚ
  rate : ℚ
  usd_rate : ℚ
  usd_amount : ℚ
  created_at : Option DateTime
  provider : String
  deriving DecidableEq, Repr

/-- `PartialOrd for Transaction` (src/types.rs lines 32-42), which `Ord::cmp`
unwraps (lines 44-48): compare the timestamps when both are present, otherwise
return `Equal`. -/
def Transaction.cmp (a b : Transaction) : Ordering :=
  match a.created_at, b.created_at with
  | some created_at, some other_created_at => compare created_at other_created_at
  | _, _ => .eq

/-- A transaction with the given id and timestamp and empty remaining fields. -/
def txnAt (i : String) (c : Option DateTime) : Transaction :=
  ⟨i, "", "", 0, 0, 0, 0, c, ""⟩

/-- C9 counterexample: the comparison is not a total order. Reading `x ≤ y` as
`cmp x y ≠ Greater`, a transaction dated 2 and one dated 1 both compare equal to a
timestamp-less transaction, yet the dated pair compares `Greater`; transitivity
fails (`a ≤ b`, `b ≤ c`, but not `a ≤ c`). -/
theorem C9_counterexample_not_transitive :
    Transaction.cmp (txnAt "a" (some 2)) (txnAt "b" none) = .eq ∧
    Transaction.cmp (txnAt "b" none) (txnAt "c" (some 1)) = .eq ∧
    Transaction.cmp (txnAt "a" (some 2)) (txnAt "c" (some 1)) = .gt := by
  refine ⟨rfl, rfl, ?_⟩
  decide

/-- C9 (amended): the comparison is determined by the timestamps, with a missing
`created_at` comparing equal to every transaction on either side; it is reflexive,
total, antisymmetric in the sense `cmp a b = (cmp b a).swap`, and transitive when
restricted to transactions that all carry timestamps. It is not transitive — hence
not a total order — over all transactions (see the counterexample). -/
theorem C9_cmp_laws :
    (∀ a b : Transaction, a.cmp b ≠ .gt ∨ b.cmp a ≠ .gt) ∧
    (∀ a : Transaction, a.cmp a = .eq) ∧
    (∀ a b : Transaction, a.created_at = none → a.cmp b = .eq ∧ b.cmp a = .eq) ∧
    (∀ a b : Transaction, a.cmp b = (b.cmp a).swap) ∧
    (∀ a b c : Transaction, a.created_at.isSome → b.created_at.isSome →
      c.created_at.isSome → a.cmp b ≠ .gt → b.cmp c ≠ .gt → a.cmp c ≠ .gt) := by
  refine ⟨?_, ?_, ?_, ?_, ?_⟩
  · intro a b
    unfold Transaction.cmp
    cases a.created_at with
    | none => left; simp
    | some x =>
        cases b.created_at with
        | none => left; simp
        | some y =>
            rcases le_total x y with h | h
            · left; exact compare_le_iff_le.2 h
            · right; exact compare_le_iff_le.2 h
  · intro a
    unfold Transaction.cmp
    cases a.created_at with
    | none => rfl
    | some x => exact compare_eq_iff_eq.2 rfl
  · intro a b h
    unfold Transaction.cmp
    rw [h]
    cases b.created_at <;> simp
  · intro a b
    unfold Transaction.cmp
    cases a.created_at with
    | none => cases b.created_at <;> rfl
    | some x =>
        cases b.created_at with
        | none => rfl
        | some y =>
            show compare x y = (compare y x).swap
            rcases lt_trichotomy x y with h | h | h
            · rw [compare_lt_iff_lt.2 h, compare_gt_iff_gt.2 h]
              rfl
            · subst h
              rw [compare_eq_iff_eq.2 rfl]
              rfl
            · rw [compare_gt_iff_gt.2 h, compare_lt_iff_lt.2 h]
              rfl
  · intro a b c ha hb hc hab hbc
    unfold Transaction.cmp at hab hbc ⊢
    obtain ⟨x, hx⟩ := Option.isSome_iff_exists.1 ha
    obtain ⟨y, hy⟩ := Option.isSome_iff_exists.1 hb
    obtain ⟨z, hz⟩ := Option.isSome_iff_exists.1 hc
    rw [hx, hy] at hab
    rw [hy, hz] at hbc
    rw [hx, hz]
    exact compare_le_iff_le.2
      (le_trans (compare_le_iff_le.1 hab) (compare_le_iff_le.1 hbc))

/-- Three concrete timestamped transactions in increasing order. -/
theorem C9_cmp_laws_witness :
    (txnAt "a" (some 1)).cmp (txnAt "a" (some 1)) = .eq ∧
    ((txnAt "a" (some 1)).cmp (txnAt "b" (some 2)) ≠ .gt →
      (txnAt "b" (some 2)).cmp (txnAt "c" (some 3)) ≠ .gt →
      (txnAt "a" (some 1)).cmp (txnAt "c" (some 3)) ≠ .gt) :=
  ⟨C9_cmp_laws.2.1 (txnAt "a" (some 1)),
    C9_cmp_laws.2.2.2.2 (txnAt "a" (some 1)) (txnAt "b" (some 2)) (txnAt "c" (some 3))
      (by decide) (by decide) (by decide)⟩


/-- Is `c` an ASCII digit `0`-`9`. -/
def isDigitChar (c : Char) : Bool := decide (48 ≤ c.toNat ∧ c.toNat ≤ 57)

/-- Numeric value of a digit string, most significant digit first. -/
def digitsValN (l : List Char) : ℕ :=
  l.foldl (fun acc c => 10 * acc + (c.toNat - 48)) 0

/-- Strip one optional leading sign, returning the sign factor and the remainder
(`BigDecimal` string parsing accepts an optional `+` or `-`). -/
def splitSign (l : List Char) : ℚ × List Char :=
  match l with
  | [] => (1, [])
  | c :: rest =>
      if c = '-' then (-1, rest)
      else if c = '+' then (1, rest)
      else (1, c :: rest)

/-- Model of `str::parse::<BigDecimal>` (the external crate's `FromStr`, called by
`parse_amount`): an optional sign, integer digits, and an optional fractional part
introduced by `'.'`, with at least one digit overall; exponent forms are not
modelled. -/
def parseBigDecimalStr (l : List Char) : Option ℚ :=
  let s := splitSign l
  let intPart := s.2.takeWhile isDigitChar
  let rest := s.2.dropWhile isDigitChar
  match rest with
  | [] => if intPart = [] then none else some (s.1 * digitsValN intPart)
  | c :: frac =>
      if c = '.' ∧ frac.all isDigitChar ∧ (intPart ≠ [] ∨ frac ≠ []) then
        some (s.1 * (digitsValN intPart + (digitsValN frac : ℚ) / 10 ^ frac.length))
      else none

/-- The anchored regex `\A\((.*)\)\z` of `parse_amount`: the input is an opening
parenthesis, a capture in which `.` cannot match a newline, and a closing
parenthesis. -/
def regexParenCapture (input : List Char) : Option (List Char) :=
  match input with
  | [] => none
  | c :: rest =>
      if c = '(' ∧ rest.getLast? = some ')' ∧ '\n' ∉ rest.dropLast
      then some rest.dropLast else none

/-- `trim_start_matches('$')`: drop every leading dollar sign. -/
def trimStartDollars (l : List Char) : List Char :=
  l.dropWhile (fun c => decide (c = '$'))

/-- `parse_amount` from src/types.rs lines 80-88, on the character list of the input
string: a parenthesized input has its capture dollar-stripped, parsed, and
multiplied by `-1`; otherwise the input itself is dollar-stripped and parsed. -/
def parse_amount (input : List Char) : Option ℚ :=
  match regexParenCapture input with
  | some amount => (parseBigDecimalStr (trimStartDollars amount)).map (fun r => r * (-1))
  | none => parseBigDecimalStr (trimStartDollars input)

/-- Fuel-indexed decimal digits of `n`, most significant first (the fuel is
sufficient whenever `n ≤ fuel`). -/
def natDigitsAux : ℕ → ℕ → List ℕ
  | 0, n => [n % 10]
  | fuel + 1, n => if n < 10 then [n] else natDigitsAux fuel (n / 10) ++ [n % 10]

/-- The decimal digits of `n`, most significant first. -/
def natDigits (n : ℕ) : List ℕ := natDigitsAux n n

/-- The character of the digit `d ≤ 9`. -/
def digitChar (d : ℕ) : Char := Char.ofNat (48 + d)

/-- Decimal rendering of a natural number. -/
def natStr (n : ℕ) : List Char := (natDigits n).map digitChar

/-- Zero-pad on the left to width `k`. -/
def padZeros (k : ℕ) (l : List Char) : List Char :=
  List.replicate (k - l.length) '0' ++ l

/-- The `{:.4}` rendering of a nonnegative decimal: scale by `10^4`, round (ties
up), and print with exactly four digits after the decimal point. -/
def fmt4 (x : ℚ) : List Char :=
  let n : ℕ := (Int.floor (x * 10000 + 1 / 2)).toNat
  natStr (n / 10000) ++ '.' :: padZeros 4 (natStr (n % 10000))

/-- `format_amount` from src/types.rs lines 58-64: negative values render as their
absolute value in parentheses. -/
def format_amount (x : ℚ) : List Char :=
  if x < 0 then '(' :: (fmt4 (abs x) ++ [')']) else fmt4 x

/-- `format_usd_amount` from src/types.rs lines 50-56: as `format_amount` with a
dollar prefix inside the parentheses. -/
def format_usd_amount (x : ℚ) : List Char :=
  if x < 0 then '(' :: '$' :: (fmt4 (abs x) ++ [')']) else '$' :: fmt4 x


theorem natDigitsAux_spec (fuel : ℕ) : ∀ n : ℕ, n ≤ fuel →
    (∀ d ∈ natDigitsAux fuel n, d < 10) ∧ natDigitsAux fuel n ≠ [] ∧
    (natDigitsAux fuel n).foldl (fun a d => 10 * a + d) 0 = n := by
  induction fuel with
  | zero =>
      intro n hn
      interval_cases n
      refine ⟨?_, ?_, ?_⟩ <;> simp [natDigitsAux]
  | succ fuel ih =>
      intro n hn
      by_cases h10 : n < 10
      · refine ⟨?_, ?_, ?_⟩ <;> simp [natDigitsAux, h10]
      · have hpos : 0 < n := by omega
        have hlt : n / 10 < n := Nat.div_lt_self hpos (by omega)
        have hn10 : n / 10 ≤ fuel := by omega
        obtain ⟨hd, hne, hval⟩ := ih (n / 10) hn10
        refine ⟨?_, ?_, ?_⟩
        · intro d hdm
          simp only [natDigitsAux, if_neg h10] at hdm
          rcases List.mem_append.1 hdm with h | h
          · exact hd d h
          · simp only [List.mem_singleton] at h
            subst h
            exact Nat.mod_lt _ (by omega)
        · simp [natDigitsAux, if_neg h10]
        · simp only [natDigitsAux, if_neg h10, List.foldl_append, List.foldl_cons,
            List.foldl_nil]
          rw [hval]
          omega

theorem natDigitsAux_length (fuel : ℕ) : ∀ n k : ℕ, n ≤ fuel → n < 10 ^ k → 1 ≤ k →
    (natDigitsAux fuel n).length ≤ k := by
  induction fuel with
  | zero =>
      intro n k hn _ hk
      interval_cases n
      simpa [natDigitsAux] using hk
  | succ fuel ih =>
      intro n k hn hnk hk
      by_cases h10 : n < 10
      · simp only [natDigitsAux, if_pos h10, List.length_singleton]
        omega
      · have hk2 : 2 ≤ k := by
          rcases Nat.lt_or_ge k 2 with h | h
          · have hk1 : k = 1 := by omega
            subst hk1
            simp at hnk
            omega
          · exact h
        have hpos : 0 < n := by omega
        have hlt : n / 10 < n := Nat.div_lt_self hpos (by omega)
        have hn10 : n / 10 ≤ fuel := by omega
        have hdiv : n / 10 < 10 ^ (k - 1) := by
          rw [Nat.div_lt_iff_lt_mul (by omega)]
          calc n < 10 ^ k := hnk
            _ = 10 ^ (k - 1) * 10 := by
                rw [← pow_succ]
                congr 1
                omega
        have hih := ih (n / 10) (k - 1) hn10 hdiv (by omega)
        simp only [natDigitsAux, if_neg h10, List.length_append, List.length_cons,
          List.length_nil]
        omega

theorem digitChar_toNat (d : ℕ) (hd : d < 10) : (digitChar d).toNat = 48 + d := by
  interval_cases d <;> decide

theorem isDigitChar_digitChar (d : ℕ) (hd : d < 10) : isDigitChar (digitChar d) = true := by
  simp only [isDigitChar, digitChar_toNat d hd, decide_eq_true_eq]
  omega

theorem foldl_digits_map (ds : List ℕ) : ∀ acc : ℕ, (∀ d ∈ ds, d < 10) →
    (ds.map digitChar).foldl (fun a c => 10 * a + (c.toNat - 48)) acc
      = ds.foldl (fun a d => 10 * a + d) acc := by
  induction ds with
  | nil => intro acc _; rfl
  | cons d rest ih =>
      intro acc hd
      simp only [List.map_cons, List.foldl_cons]
      rw [digitChar_toNat d (hd d (List.mem_cons_self _ _)),
        show 48 + d - 48 = d by omega]
      exact ih _ (fun x hx => hd x (List.mem_cons_of_mem _ hx))

theorem natStr_spec (n : ℕ) :
    natStr n ≠ [] ∧ (∀ c ∈ natStr n, isDigitChar c = true) ∧ digitsValN (natStr n) = n := by
  obtain ⟨hd, hne, hval⟩ := natDigitsAux_spec n n le_rfl
  refine ⟨?_, ?_, ?_⟩
  · simp [natStr, natDigits, hne]
  · intro c hc
    simp only [natStr, natDigits, List.mem_map] at hc
    obtain ⟨d, hdm, he⟩ := hc
    subst he
    exact isDigitChar_digitChar d (hd d hdm)
  · unfold digitsValN natStr natDigits
    rw [foldl_digits_map _ 0 hd]
    exact hval

theorem natStr_length_le (n k : ℕ) (hn : n < 10 ^ k) (hk : 1 ≤ k) :
    (natStr n).length ≤ k := by
  simp only [natStr, natDigits, List.length_map]
  exact natDigitsAux_length n n k le_rfl hn hk

theorem foldl_replicate_zero (m : ℕ) :
    (List.replicate m '0').foldl (fun a c => 10 * a + (c.toNat - 48)) 0 = 0 := by
  induction m with
  | zero => rfl
  | succ m ih => simpa [List.replicate_succ] using ih

theorem digitsValN_padZeros (k : ℕ) (l : List Char) :
    digitsValN (padZeros k l) = digitsValN l := by
  unfold padZeros digitsValN
  rw [List.foldl_append, foldl_replicate_zero]

theorem padZeros_all_digits (k : ℕ) (l : List Char)
    (h : ∀ c ∈ l, isDigitChar c = true) :
    ∀ c ∈ padZeros k l, isDigitChar c = true := by
  intro c hc
  rcases List.mem_append.1 hc with h1 | h1
  · rw [List.eq_of_mem_replicate h1]
    decide
  · exact h c h1

theorem padZeros_length (k : ℕ) (l : List Char) (h : l.length ≤ k) :
    (padZeros k l).length = k := by
  simp [padZeros]
  omega


theorem takeWhile_append_stop (p : Char → Bool) (l1 : List Char) (c : Char)
    (l2 : List Char) (h1 : ∀ x ∈ l1, p x = true) (hc : p c = false) :
    (l1 ++ c :: l2).takeWhile p = l1 ∧ (l1 ++ c :: l2).dropWhile p = c :: l2 := by
  induction l1 with
  | nil =>
      constructor
      · simp [List.takeWhile_cons, hc]
      · simp [List.dropWhile_cons, hc]
  | cons a t ih =>
      have ha : p a = true := h1 a (List.mem_cons_self _ _)
      obtain ⟨iht, ihd⟩ := ih (fun x hx => h1 x (List.mem_cons_of_mem _ hx))
      constructor
      · simp only [List.cons_append, List.takeWhile_cons, ha, if_true, iht]
      · simp only [List.cons_append, List.dropWhile_cons, ha, if_true, ihd]

theorem isDigitChar_ne (c : Char) (h : isDigitChar c = true) :
    ¬ c = '-' ∧ ¬ c = '+' ∧ ¬ c = '$' ∧ ¬ c = '(' ∧ ¬ c = '\n' := by
  refine ⟨?_, ?_, ?_, ?_, ?_⟩ <;> intro he <;> subst he <;> exact absurd h (by decide)

theorem splitSign_no_sign (c : Char) (l : List Char) (h1 : ¬ c = '-') (h2 : ¬ c = '+') :
    splitSign (c :: l) = (1, c :: l) := by
  simp [splitSign, h1, h2]

theorem parseBigDecimalStr_digits (a b : ℕ) (hb : (natStr b).length ≤ 4) :
    parseBigDecimalStr (natStr a ++ '.' :: padZeros 4 (natStr b))
      = some ((a : ℚ) + (b : ℚ) / 10 ^ 4) := by
  obtain ⟨hane, hadig, haval⟩ := natStr_spec a
  obtain ⟨hbne, hbdig, hbval⟩ := natStr_spec b
  obtain ⟨c0, t, hna⟩ := List.exists_cons_of_ne_nil hane
  have hc0 : isDigitChar c0 = true := by
    have hadig2 := hadig
    rw [hna] at hadig2
    exact hadig2 c0 (List.mem_cons_self _ _)
  obtain ⟨hm, hp, _, _, _⟩ := isDigitChar_ne c0 hc0
  have hsplit : splitSign (natStr a ++ '.' :: padZeros 4 (natStr b))
      = (1, natStr a ++ '.' :: padZeros 4 (natStr b)) := by
    rw [hna, List.cons_append, splitSign_no_sign c0 _ hm hp, ← List.cons_append, ← hna]
  have hdot : isDigitChar '.' = false := by decide
  obtain ⟨htw, hdw⟩ := takeWhile_append_stop isDigitChar (natStr a) '.'
    (padZeros 4 (natStr b)) hadig hdot
  unfold parseBigDecimalStr
  rw [hsplit]
  simp only [htw, hdw]
  have hcond : True ∧ (padZeros 4 (natStr b)).all isDigitChar = true ∧
      (natStr a ≠ [] ∨ padZeros 4 (natStr b) ≠ []) := by
    refine ⟨trivial, ?_, Or.inl hane⟩
    rw [List.all_eq_true]
    exact padZeros_all_digits 4 (natStr b) hbdig
  rw [if_pos hcond]
  rw [digitsValN_padZeros, padZeros_length 4 (natStr b) hb, haval, hbval, one_mul]

theorem floor_add_half (n : ℕ) : ⌊((n : ℚ) + 1 / 2)⌋ = (n : ℤ) := by
  rw [Int.floor_eq_iff]
  constructor
  · push_cast
    linarith
  · push_cast
    linarith

theorem fmt4_of_nat (x : ℚ) (n : ℕ) (hx : x * 10000 = (n : ℚ)) :
    fmt4 x = natStr (n / 10000) ++ '.' :: padZeros 4 (natStr (n % 10000)) := by
  unfold fmt4
  rw [hx, floor_add_half, Int.toNat_natCast]

theorem parseBigDecimalStr_fmt4 (x : ℚ) (n : ℕ) (hx : x * 10000 = (n : ℚ)) :
    parseBigDecimalStr (fmt4 x) = some x := by
  have hmod : n % 10000 < 10 ^ 4 := by
    have := Nat.mod_lt n (show 0 < 10000 by omega)
    omega
  have hlen : (natStr (n % 10000)).length ≤ 4 :=
    natStr_length_le _ 4 hmod (by omega)
  rw [fmt4_of_nat x n hx, parseBigDecimalStr_digits _ _ hlen]
  congr 1
  have hdm : (10000 : ℚ) * ((n / 10000 : ℕ) : ℚ) + ((n % 10000 : ℕ) : ℚ) = (n : ℚ) := by
    exact_mod_cast congrArg (fun m : ℕ => (m : ℚ)) (Nat.div_add_mod n 10000)
  have h10 : ((10 : ℚ) ^ 4) = 10000 := by norm_num
  rw [h10]
  have hx4 : x = (n : ℚ) / 10000 := by
    rw [eq_div_iff (show (10000 : ℚ) ≠ 0 by norm_num)]
    exact hx
  rw [hx4, ← hdm]
  field_simp
  ring

theorem fmt4_head (x : ℚ) :
    ∃ c t, fmt4 x = c :: t ∧ isDigitChar c = true := by
  obtain ⟨hne, hdig, _⟩ :=
    natStr_spec ((Int.floor (x * 10000 + 1 / 2)).toNat / 10000)
  cases hns : natStr ((Int.floor (x * 10000 + 1 / 2)).toNat / 10000) with
  | nil => exact absurd hns hne
  | cons c t =>
      refine ⟨c, t ++ '.' :: padZeros 4 (natStr ((Int.floor (x * 10000 + 1 / 2)).toNat % 10000)), ?_, ?_⟩
      · simp only [fmt4]
        rw [hns, List.cons_append]
      · rw [hns] at hdig
        exact hdig c (List.mem_cons_self _ _)

theorem fmt4_chars (x : ℚ) : ∀ c ∈ fmt4 x, isDigitChar c = true ∨ c = '.' := by
  intro c hc
  unfold fmt4 at hc
  obtain ⟨hne1, hdig1, _⟩ := natStr_spec ((Int.floor (x * 10000 + 1 / 2)).toNat / 10000)
  obtain ⟨hne2, hdig2, _⟩ := natStr_spec ((Int.floor (x * 10000 + 1 / 2)).toNat % 10000)
  rcases List.mem_append.1 hc with h | h
  · exact Or.inl (hdig1 c h)
  · rcases List.mem_cons.1 h with h1 | h1
    · exact Or.inr h1
    · exact Or.inl (padZeros_all_digits 4 _ hdig2 c h1)


theorem digit_head_parse (c : Char) (t : List Char) (h : isDigitChar c = true) :
    regexParenCapture (c :: t) = none ∧ trimStartDollars (c :: t) = c :: t := by
  obtain ⟨_, _, hds, hpar, _⟩ := isDigitChar_ne c h
  constructor
  · simp only [regexParenCapture]
    rw [if_neg]
    intro hcon
    exact hpar hcon.1
  · simp only [trimStartDollars]
    rw [List.dropWhile_cons_of_neg]
    simp [hds]

/-- C7 counterexample: formatting rounds to four decimal places, so the round trip
fails for `1/100000`: both renderings parse back to `0`. -/
theorem C7_counterexample_roundtrip_fails :
    parse_amount (format_amount (1 / 100000)) = some 0 ∧
    parse_amount (format_usd_amount (1 / 100000)) = some 0 ∧
    ((1 : ℚ) / 100000) ≠ 0 := by
  refine ⟨?_, ?_, by norm_num⟩ <;> with_unfolding_all rfl

/-- C7 (amended): the round trip `parse_amount (format_amount x) = x` (and the same
through `format_usd_amount`) holds exactly on the decimals the four-place rendering
can represent: every `x` with `x * 10^4` an integer. It fails beyond that scale (see
the counterexample). -/
theorem C7_roundtrip_scale4 (x : ℚ) (h : (x * 10000).den = 1) :
    parse_amount (format_amount x) = some x ∧
    parse_amount (format_usd_amount x) = some x := by
  by_cases hneg : x < 0
  · have hden : (-x * 10000).den = 1 := by
      rw [show -x * 10000 = -(x * 10000) by ring, Rat.neg_den]
      exact h
    have hnum0 : 0 ≤ (-x * 10000).num := by
      rw [Rat.num_nonneg]
      nlinarith
    have hxn : -x * 10000 = (((-x * 10000).num.toNat : ℕ) : ℚ) := by
      have h1 : ((-x * 10000).num : ℚ) = -x * 10000 := (Rat.den_eq_one_iff _).1 hden
      have h2 : (((-x * 10000).num.toNat : ℕ) : ℤ) = (-x * 10000).num :=
        Int.toNat_of_nonneg hnum0
      rw [← h1]
      exact_mod_cast congrArg (fun z : ℤ => (z : ℚ)) h2.symm
    have hparse : parseBigDecimalStr (fmt4 (-x)) = some (-x) :=
      parseBigDecimalStr_fmt4 (-x) _ hxn
    obtain ⟨c, t, hct, hcd⟩ := fmt4_head (-x)
    have hnl : '\n' ∉ fmt4 (-x) := by
      intro hmem
      rcases fmt4_chars (-x) _ hmem with hd | hd
      · exact absurd hd (by decide)
      · exact absurd hd (by decide)
    have htrim : trimStartDollars (fmt4 (-x)) = fmt4 (-x) := by
      rw [hct]
      exact (digit_head_parse c t hcd).2
    constructor
    · simp only [format_amount, if_pos hneg, abs_of_neg hneg]
      have hrg : regexParenCapture ('(' :: (fmt4 (-x) ++ [')'])) = some (fmt4 (-x)) := by
        simp only [regexParenCapture]
        rw [List.getLast?_concat, List.dropLast_concat]
        rw [if_pos ⟨trivial, rfl, hnl⟩]
      unfold parse_amount
      rw [hrg]
      show (parseBigDecimalStr (trimStartDollars (fmt4 (-x)))).map (fun r => r * (-1))
        = some x
      rw [htrim, hparse]
      simp only [Option.map_some']
      congr 1
      ring
    · simp only [format_usd_amount, if_pos hneg, abs_of_neg hneg]
      have hrg : regexParenCapture ('(' :: '$' :: (fmt4 (-x) ++ [')']))
          = some ('$' :: fmt4 (-x)) := by
        simp only [regexParenCapture]
        rw [← List.cons_append, List.getLast?_concat, List.dropLast_concat]
        rw [if_pos]
        refine ⟨trivial, rfl, ?_⟩
        intro hmem
        rcases List.mem_cons.1 hmem with h1 | h1
        · exact absurd h1 (by decide)
        · exact hnl h1
      unfold parse_amount
      rw [hrg]
      show (parseBigDecimalStr (trimStartDollars ('$' :: fmt4 (-x)))).map
          (fun r => r * (-1)) = some x
      have htrim2 : trimStartDollars ('$' :: fmt4 (-x)) = fmt4 (-x) := by
        simp only [trimStartDollars]
        rw [List.dropWhile_cons_of_pos (by decide)]
        exact htrim
      rw [htrim2, hparse]
      simp only [Option.map_some']
      congr 1
      ring
  · have hx0 : (0 : ℚ) ≤ x := not_lt.1 hneg
    have hnum0 : 0 ≤ (x * 10000).num := by
      rw [Rat.num_nonneg]
      positivity
    have hxn : x * 10000 = (((x * 10000).num.toNat : ℕ) : ℚ) := by
      have h1 : ((x * 10000).num : ℚ) = x * 10000 := (Rat.den_eq_one_iff _).1 h
      have h2 : (((x * 10000).num.toNat : ℕ) : ℤ) = (x * 10000).num :=
        Int.toNat_of_nonneg hnum0
      rw [← h1]
      exact_mod_cast congrArg (fun z : ℤ => (z : ℚ)) h2.symm
    have hparse : parseBigDecimalStr (fmt4 x) = some x :=
      parseBigDecimalStr_fmt4 x _ hxn
    obtain ⟨c, t, hct, hcd⟩ := fmt4_head x
    obtain ⟨hrg, htrim⟩ := digit_head_parse c t hcd
    constructor
    · simp only [format_amount, if_neg hneg]
      unfold parse_amount
      rw [hct, hrg]
      show parseBigDecimalStr (trimStartDollars (c :: t)) = some x
      rw [htrim, ← hct]
      exact hparse
    · simp only [format_usd_amount, if_neg hneg]
      unfold parse_amount
      have hrg2 : regexParenCapture ('$' :: fmt4 x) = none := by
        simp only [regexParenCapture]
        rw [if_neg]
        intro hcon
        exact absurd hcon.1 (by decide)
      rw [hrg2]
      show parseBigDecimalStr (trimStartDollars ('$' :: fmt4 x)) = some x
      have htrim2 : trimStartDollars ('$' :: fmt4 x) = fmt4 x := by
        simp only [trimStartDollars]
        rw [List.dropWhile_cons_of_pos (by decide), hct]
        exact htrim
      rw [htrim2]
      exact hparse

theorem C7_roundtrip_scale4_witness :
    ((-(31427 / 10000) : ℚ) * 10000).den = 1 ∧
    parse_amount (format_amount (-(31427 / 10000))) = some (-(31427 / 10000)) ∧
    parse_amount (format_usd_amount (-(31427 / 10000))) = some (-(31427 / 10000)) :=
  ⟨by with_unfolding_all decide,
    (C7_roundtrip_scale4 (-(31427 / 10000)) (by with_unfolding_all decide)).1,
    (C7_roundtrip_scale4 (-(31427 / 10000)) (by with_unfolding_all decide)).2⟩


theorem splitSign_mem (l : List Char) (x : Char) (hx : x ∈ l) :
    x = '-' ∨ x = '+' ∨ x ∈ (splitSign l).2 := by
  cases l with
  | nil => simp at hx
  | cons c rest =>
      unfold splitSign
      simp only []
      by_cases h1 : c = '-'
      · rw [if_pos h1]
        rcases List.mem_cons.1 hx with hh | hh
        · left; rw [hh, h1]
        · right; right; exact hh
      · rw [if_neg h1]
        by_cases h2 : c = '+'
        · rw [if_pos h2]
          rcases List.mem_cons.1 hx with hh | hh
          · right; left; rw [hh, h2]
          · right; right; exact hh
        · rw [if_neg h2]
          right; right; exact hx

theorem parseBigDecimalStr_no_newline (l : List Char) (d : ℚ)
    (h : parseBigDecimalStr l = some d) : '\n' ∉ l := by
  intro hmem
  rcases splitSign_mem l '\n' hmem with hs | hs | hs
  · exact absurd hs (by decide)
  · exact absurd hs (by decide)
  · rw [← List.takeWhile_append_dropWhile (p := isDigitChar) (l := (splitSign l).2)] at hs
    rcases List.mem_append.1 hs with h1 | h1
    · exact absurd (List.mem_takeWhile_imp h1) (by decide)
    · unfold parseBigDecimalStr at h
      simp only [] at h
      cases hdw : (splitSign l).2.dropWhile isDigitChar with
      | nil => rw [hdw] at h1; simp at h1
      | cons c frac =>
          rw [hdw] at h h1
          simp only [] at h
          split_ifs at h with hc
          · obtain ⟨hdot, hall, _⟩ := hc
            rcases List.mem_cons.1 h1 with h2 | h2
            · subst hdot
              exact absurd h2 (by decide)
            · rw [List.all_eq_true] at hall
              exact absurd (hall _ h2) (by decide)

theorem trimStartDollars_no_newline (s : List Char) (h : '\n' ∉ trimStartDollars s) :
    '\n' ∉ s := by
  intro hmem
  rw [← List.takeWhile_append_dropWhile (p := fun c => decide (c = '$')) (l := s)] at hmem
  rcases List.mem_append.1 hmem with h1 | h1
  · have h2 := List.mem_takeWhile_imp h1
    simp at h2
  · exact h h1

/-- C10 counterexample: `"(1)"` is accepted with value `-1`, but wrapping it in a
further pair of parentheses is rejected rather than negated again: the capture
`"(1)"` is not a decimal literal. -/
theorem C10_counterexample_nested_parens :
    parse_amount ['(', '1', ')'] = some (-1) ∧
    parse_amount ['(', '(', '1', ')', ')'] = none := by
  constructor <;> with_unfolding_all rfl

/-- C10 (amended): parenthesizing negates exactly the plain-path acceptances: for
every string `s` whose dollar-stripped text is a plain decimal literal of value `d`,
`parse_amount` of `"(" ++ s ++ ")"` returns `-d`. (For an `s` that is itself
parenthesized the claim fails — see the counterexample.) In particular `"(-3.14)"`
parses to the positive value `3.14`. -/
theorem C10_paren_wrapping_negates (s : List Char) (d : ℚ)
    (h : parseBigDecimalStr (trimStartDollars s) = some d) :
    parse_amount ('(' :: (s ++ [')'])) = some (-d) := by
  have hnl : '\n' ∉ s :=
    trimStartDollars_no_newline s (parseBigDecimalStr_no_newline _ d h)
  have hrg : regexParenCapture ('(' :: (s ++ [')'])) = some s := by
    simp only [regexParenCapture]
    rw [List.getLast?_concat, List.dropLast_concat]
    rw [if_pos ⟨trivial, rfl, hnl⟩]
  unfold parse_amount
  rw [hrg]
  show (parseBigDecimalStr (trimStartDollars s)).map (fun r => r * (-1)) = some (-d)
  rw [h]
  simp only [Option.map_some']
  congr 1
  ring

theorem C10_paren_wrapping_negates_witness :
    parseBigDecimalStr (trimStartDollars ['-', '3', '.', '1', '4'])
      = some (-(157 / 50)) ∧
    parse_amount ['(', '-', '3', '.', '1', '4', ')'] = some (157 / 50) := by
  refine ⟨by with_unfolding_all rfl, ?_⟩
  have h := C10_paren_wrapping_negates ['-', '3', '.', '1', '4'] (-(157 / 50))
    (by with_unfolding_all rfl)
  simpa using h

end Tribute
